import Mathlib

/-!
Verification of the `Sheduler` work-dispatch core (`src/shed.rs`).

The dispatcher owns a frontier (`State`: a seen set and a LIFO wait list),
a per-engine status table (`engines`), and a terminal `engines_stoped` flag.
Rust's mutable methods become pure state-passing functions; `Vec::push`/`pop`
act at the end of a Lean `List`; `HashMap<i32, EngineState>` becomes an
association list with replace-on-insert; `HashSet<Url>` becomes a `List Url`
used only through membership.  `Duration` is carried as milliseconds (`Nat`).
`url::Url` is an opaque comparable key, modelled by a type parameter with
decidable equality.
-/

set_option linter.unusedSectionVars false

namespace Donop

variable {Url : Type} [DecidableEq Url]

/-- Frontier state, from `struct State`: `seen_list` models the
`HashSet<Url>` of already-seen URLs, `wait_list` the `Vec<Url>` of URLs
awaiting dispatch (`push`/`pop` operate at the end of the list). -/
structure State (Url : Type) where
  seen_list : List Url
  wait_list : List Url
deriving DecidableEq

/-- Per-engine status, from `enum EngineState`. -/
inductive EngineState where
  | Idle
  | Work
  | Created
deriving DecidableEq, BEq

/-- A job handed to an engine, from `enum Job`.  `Idle` carries the wait
duration in milliseconds (`Duration::from_millis`). -/
inductive Job (Url : Type) where
  | Search (url : Url)
  | Idle (millis : Nat)
  | Closed
deriving DecidableEq

/-- `State::update_url`: if the URL was not yet seen, push it onto the wait
list and insert it into the seen set; otherwise do nothing. -/
def State.update_url (s : State Url) (url : Url) : State Url :=
  if url ∈ s.seen_list then s
  else { seen_list := url :: s.seen_list, wait_list := s.wait_list ++ [url] }

/-- `State::update`: apply `update_url` to each URL in order. -/
def State.update (s : State Url) (urls : List Url) : State Url :=
  urls.foldl State.update_url s

/-- `HashMap::insert` on the engine table: replace the binding for the key
when present, otherwise add a new one. -/
def insertEngine (m : List (Int × EngineState)) (k : Int) (v : EngineState) :
    List (Int × EngineState) :=
  match m with
  | [] => [(k, v)]
  | (k', v') :: rest =>
      if k' = k then (k, v) :: rest else (k', v') :: insertEngine rest k v

/-- `HashMap::get` on the engine table. -/
def lookupEngine (m : List (Int × EngineState)) (k : Int) : Option EngineState :=
  match m with
  | [] => none
  | (k', v') :: rest => if k' = k then some v' else lookupEngine rest k

/-- `self.engines.iter().all(|(_, s)| s == &EngineState::Idle)`. -/
def allIdle (m : List (Int × EngineState)) : Bool :=
  m.all fun p => p.2 == EngineState.Idle

/-- The dispatcher, from `struct Sheduler`. -/
structure Sheduler (Url : Type) where
  engines : List (Int × EngineState)
  state : State Url
  engines_stoped : Bool
deriving DecidableEq

/-- `Sheduler::default()`: empty table, empty frontier, not stopped. -/
def Sheduler.default : Sheduler Url :=
  { engines := [], state := { seen_list := [], wait_list := [] }, engines_stoped := false }

/-- `Sheduler::is_closed`. -/
def Sheduler.is_closed (s : Sheduler Url) : Bool :=
  s.engines_stoped

/-- `Sheduler::close`. -/
def Sheduler.close (s : Sheduler Url) : Sheduler Url :=
  { s with engines_stoped := true }

/-- `Sheduler::set_engine_state`. -/
def Sheduler.set_engine_state (s : Sheduler Url) (id : Int) (st : EngineState) :
    Sheduler Url :=
  { s with engines := insertEngine s.engines id st }

/-- `Sheduler::mark_urls`. -/
def Sheduler.mark_urls (s : Sheduler Url) (urls : List Url) : Sheduler Url :=
  { s with state := s.state.update urls }

/-- `Sheduler::mark_url`. -/
def Sheduler.mark_url (s : Sheduler Url) (url : Url) : Sheduler Url :=
  { s with state := s.state.update_url url }

/-- `self.state.wait_list.pop()`: remove and return the last element of the
wait list (a `Vec::pop`). -/
def Sheduler.pop_wait (s : Sheduler Url) : Option Url × Sheduler Url :=
  (s.state.wait_list.getLast?,
   { s with state := { s.state with wait_list := s.state.wait_list.dropLast } })

/-- `Sheduler::get_job`: if closed, return `Closed`; if every recorded engine
is idle and the wait list is empty, close and return `Closed`; otherwise pop
a URL (returning `Search`, marking the engine `Work`) or, when none is
pending, mark the engine `Idle` and return a 5000 ms `Idle` job. -/
def Sheduler.get_job (s : Sheduler Url) (engine_id : Int) : Job Url × Sheduler Url :=
  if s.is_closed then
    (Job.Closed, s)
  else if allIdle s.engines && s.state.wait_list.isEmpty then
    (Job.Closed, s.close)
  else
    match s.pop_wait with
    | (some url, s') => (Job.Search url, s'.set_engine_state engine_id EngineState.Work)
    | (none, s') => (Job.Idle 5000, s'.set_engine_state engine_id EngineState.Idle)

/-- An external call made on the dispatcher: a `get_job` poll by an engine,
a `mark_urls` report, a `close`, or a pure `is_closed` read (which leaves
the state unchanged).  Only polls produce a `Job`. -/
inductive Op (Url : Type) where
  | poll (engine_id : Int)
  | mark (urls : List Url)
  | forceClose
  | isClosed

/-- Run a sequence of calls against the dispatcher, collecting the jobs the
polls return together with the final state. -/
def runOps : Sheduler Url → List (Op Url) → List (Job Url) × Sheduler Url
  | s, [] => ([], s)
  | s, Op.poll id :: ops =>
      let r := s.get_job id
      let rs := runOps r.2 ops
      (r.1 :: rs.1, rs.2)
  | s, Op.mark urls :: ops => runOps (s.mark_urls urls) ops
  | s, Op.forceClose :: ops => runOps s.close ops
  | s, Op.isClosed :: ops => runOps s ops

/-- The URLs carried by the `Search` jobs of a job list, in order. -/
def searchesOf : List (Job Url) → List Url
  | [] => []
  | Job.Search u :: js => u :: searchesOf js
  | _ :: js => searchesOf js

/-! ### Case lemmas for `get_job` -/

lemma get_job_of_closed (s : Sheduler Url) (id : Int) (h : s.engines_stoped = true) :
    s.get_job id = (Job.Closed, s) := by
  simp [Sheduler.get_job, Sheduler.is_closed, h]

lemma get_job_quiesce (s : Sheduler Url) (id : Int) (h : s.engines_stoped = false)
    (hq : allIdle s.engines = true) (hw : s.state.wait_list = []) :
    s.get_job id = (Job.Closed, s.close) := by
  simp [Sheduler.get_job, Sheduler.is_closed, h, hq, hw]

lemma get_job_search (s : Sheduler Url) (id : Int) (h : s.engines_stoped = false)
    (l : List Url) (u : Url) (hw : s.state.wait_list = l ++ [u]) :
    s.get_job id =
      (Job.Search u,
        { engines := insertEngine s.engines id EngineState.Work,
          state := { seen_list := s.state.seen_list, wait_list := l },
          engines_stoped := false }) := by
  simp [Sheduler.get_job, Sheduler.is_closed, h, hw, Sheduler.pop_wait,
    Sheduler.set_engine_state, List.getLast?_concat, List.dropLast_concat]

lemma get_job_wait (s : Sheduler Url) (id : Int) (h : s.engines_stoped = false)
    (hq : allIdle s.engines = false) (hw : s.state.wait_list = []) :
    s.get_job id =
      (Job.Idle 5000,
        { engines := insertEngine s.engines id EngineState.Idle,
          state := s.state,
          engines_stoped := false }) := by
  simp [Sheduler.get_job, Sheduler.is_closed, h, hq, hw, Sheduler.pop_wait,
    Sheduler.set_engine_state]
  exact (State.mk.injEq _ _ _ _).mpr ⟨rfl, hw.symm⟩

lemma lookupEngine_insertEngine_self (m : List (Int × EngineState)) (k : Int)
    (v : EngineState) : lookupEngine (insertEngine m k v) k = some v := by
  induction m with
  | nil => simp [insertEngine, lookupEngine]
  | cons p rest ih =>
      obtain ⟨k', v'⟩ := p
      by_cases hk : k' = k
      · simp [insertEngine, lookupEngine, hk]
      · simp [insertEngine, lookupEngine, hk, ih]

lemma mem_insertEngine {m : List (Int × EngineState)} {k : Int} {v : EngineState}
    {p : Int × EngineState} (hp : p ∈ insertEngine m k v) : p ∈ m ∨ p = (k, v) := by
  induction m with
  | nil => simpa [insertEngine] using hp
  | cons q rest ih =>
      obtain ⟨k', v'⟩ := q
      by_cases hk : k' = k
      · simp only [insertEngine, if_pos hk, List.mem_cons] at hp
        rcases hp with h | h
        · right; exact h
        · left; exact List.mem_cons_of_mem _ h
      · simp only [insertEngine, if_neg hk, List.mem_cons] at hp
        rcases hp with h | h
        · left; exact h ▸ List.mem_cons_self _ _
        · rcases ih h with h' | h'
          · left; exact List.mem_cons_of_mem _ h'
          · right; exact h'

/-- Characterisation following the spec's words for `report`: the sublist of
`urls` that gets appended to the wait list — a URL is kept exactly when it
was not already seen at the moment of its own insertion. -/
def specNewlyPending (seen : List Url) : List Url → List Url
  | [] => []
  | u :: us =>
      if u ∈ seen then specNewlyPending seen us
      else u :: specNewlyPending (u :: seen) us

lemma update_spec (urls : List Url) :
    ∀ st : State Url,
      (st.update urls).wait_list = st.wait_list ++ specNewlyPending st.seen_list urls
      ∧ ∀ u, u ∈ (st.update urls).seen_list ↔ u ∈ st.seen_list ∨ u ∈ urls := by
  induction urls with
  | nil => intro st; simp [State.update, specNewlyPending]
  | cons v us ih =>
      intro st
      by_cases hv : v ∈ st.seen_list
      · have h1 : st.update_url v = st := by simp [State.update_url, hv]
        have hup : st.update (v :: us) = st.update us := by
          simp [State.update, h1]
        rcases ih st with ⟨ihw, ihs⟩
        refine ⟨?_, ?_⟩
        · rw [hup, ihw]
          simp [specNewlyPending, hv]
        · intro u
          rw [hup, ihs u]
          constructor
          · rintro (h | h)
            · exact Or.inl h
            · exact Or.inr (List.mem_cons_of_mem _ h)
          · rintro (h | h)
            · exact Or.inl h
            · rcases List.mem_cons.mp h with rfl | h
              · exact Or.inl hv
              · exact Or.inr h
      · have h1 : st.update_url v =
            ⟨v :: st.seen_list, st.wait_list ++ [v]⟩ := by
          simp [State.update_url, hv]
        have hup : st.update (v :: us) =
            State.update ⟨v :: st.seen_list, st.wait_list ++ [v]⟩ us := by
          simp [State.update, h1]
        rcases ih ⟨v :: st.seen_list, st.wait_list ++ [v]⟩ with ⟨ihw, ihs⟩
        refine ⟨?_, ?_⟩
        · rw [hup, ihw]
          simp [specNewlyPending, hv, List.append_assoc]
        · intro u
          rw [hup, ihs u]
          simp only [List.mem_cons]
          tauto

/-- Engine-table soundness: every recorded status is `Work` or `Idle`. -/
def enginesWF (s : Sheduler Url) : Prop :=
  ∀ p ∈ s.engines, p.2 = EngineState.Work ∨ p.2 = EngineState.Idle

lemma get_job_enginesWF (s : Sheduler Url) (id : Int) (h : enginesWF s) :
    enginesWF (s.get_job id).2 := by
  by_cases hcl : s.engines_stoped = true
  · rw [get_job_of_closed s id hcl]; exact h
  · have hopen : s.engines_stoped = false := Bool.eq_false_iff.mpr hcl
    by_cases hq : allIdle s.engines = true ∧ s.state.wait_list = []
    · rw [get_job_quiesce s id hopen hq.1 hq.2]; exact h
    · rcases List.eq_nil_or_concat s.state.wait_list with hw | ⟨l, u, hw⟩
      · have hidle : allIdle s.engines = false := by
          rcases Bool.eq_false_or_eq_true (allIdle s.engines) with h' | h'
          · exact absurd ⟨h', hw⟩ hq
          · exact h'
        rw [get_job_wait s id hopen hidle hw]
        intro p hp
        rcases mem_insertEngine hp with h' | h'
        · exact h p h'
        · exact Or.inr (by rw [h'])
      · rw [List.concat_eq_append] at hw
        rw [get_job_search s id hopen l u hw]
        intro p hp
        rcases mem_insertEngine hp with h' | h'
        · exact h p h'
        · exact Or.inl (by rw [h'])

lemma runOps_enginesWF (ops : List (Op Url)) :
    ∀ s : Sheduler Url, enginesWF s → enginesWF (runOps s ops).2 := by
  induction ops with
  | nil => intro s h; exact h
  | cons op ops ih =>
      intro s h
      cases op with
      | poll id => exact ih _ (get_job_enginesWF s id h)
      | mark urls => exact ih _ h
      | forceClose => exact ih _ h
      | isClosed => exact ih _ h

/-- Number of pending occurrences of `u` in the wait list, plus one credit
for a future insertion when `u` has not yet been seen. -/
def availCount (s : Sheduler Url) (u : Url) : Nat :=
  s.state.wait_list.count u + (if u ∈ s.state.seen_list then 0 else 1)

lemma update_url_availCount (st : State Url) (v u : Url) :
    (st.update_url v).wait_list.count u
        + (if u ∈ (st.update_url v).seen_list then 0 else 1)
      = st.wait_list.count u + (if u ∈ st.seen_list then 0 else 1) := by
  by_cases hv : v ∈ st.seen_list
  · simp [State.update_url, hv]
  · by_cases huv : u = v
    · subst huv
      simp [State.update_url, hv, List.count_append]
    · simp [State.update_url, hv, List.count_append, List.mem_cons, huv,
        List.count_singleton]

lemma update_availCount (urls : List Url) :
    ∀ st : State Url, ∀ u : Url,
      (st.update urls).wait_list.count u
          + (if u ∈ (st.update urls).seen_list then 0 else 1)
        = st.wait_list.count u + (if u ∈ st.seen_list then 0 else 1) := by
  induction urls with
  | nil => intro st u; rfl
  | cons v us ih =>
      intro st u
      have hup : st.update (v :: us) = (st.update_url v).update us := rfl
      rw [hup, ih (st.update_url v) u, update_url_availCount st v u]

lemma get_job_availCount (s : Sheduler Url) (id : Int) (u : Url) :
    ([(s.get_job id).1].count (Job.Search u)) + availCount (s.get_job id).2 u
      = availCount s u := by
  by_cases hcl : s.engines_stoped = true
  · rw [get_job_of_closed s id hcl]
    simp [availCount]
  · have hopen : s.engines_stoped = false := Bool.eq_false_iff.mpr hcl
    by_cases hq : allIdle s.engines = true ∧ s.state.wait_list = []
    · rw [get_job_quiesce s id hopen hq.1 hq.2]
      simp [availCount, Sheduler.close]
    · rcases List.eq_nil_or_concat s.state.wait_list with hw | ⟨l, v, hw⟩
      · have hidle : allIdle s.engines = false := by
          rcases Bool.eq_false_or_eq_true (allIdle s.engines) with h' | h'
          · exact absurd ⟨h', hw⟩ hq
          · exact h'
        rw [get_job_wait s id hopen hidle hw]
        simp [availCount]
      · rw [List.concat_eq_append] at hw
        rw [get_job_search s id hopen l v hw]
        by_cases huv : v = u
        · subst huv
          simp [availCount, hw, List.count_append]
          omega
        · simp [availCount, hw, List.count_append, List.count_singleton,
            List.count_cons, huv]

lemma runOps_availCount (ops : List (Op Url)) :
    ∀ s : Sheduler Url, ∀ u : Url,
      (runOps s ops).1.count (Job.Search u) + availCount (runOps s ops).2 u
        = availCount s u := by
  induction ops with
  | nil => intro s u; simp [runOps]
  | cons op ops ih =>
      intro s u
      cases op with
      | poll id =>
          have hrun : runOps s (Op.poll id :: ops)
              = ((s.get_job id).1 :: (runOps (s.get_job id).2 ops).1,
                 (runOps (s.get_job id).2 ops).2) := rfl
          rw [hrun]
          have hcons : ((s.get_job id).1 :: (runOps (s.get_job id).2 ops).1).count
                (Job.Search u)
              = [(s.get_job id).1].count (Job.Search u)
                + (runOps (s.get_job id).2 ops).1.count (Job.Search u) := by
            rw [show (s.get_job id).1 :: (runOps (s.get_job id).2 ops).1
                  = [(s.get_job id).1] ++ (runOps (s.get_job id).2 ops).1 from rfl,
              List.count_append]
          rw [hcons, Nat.add_assoc, ih (s.get_job id).2 u, get_job_availCount]
      | mark urls =>
          have hrun : runOps s (Op.mark urls :: ops) = runOps (s.mark_urls urls) ops := rfl
          rw [hrun, ih (s.mark_urls urls) u]
          exact update_availCount urls s.state u
      | forceClose =>
          have hrun : runOps s (Op.forceClose :: ops) = runOps s.close ops := rfl
          rw [hrun, ih s.close u]
          rfl
      | isClosed => exact ih s u

lemma runOps_closed_all (ops : List (Op Url)) :
    ∀ s : Sheduler Url, s.engines_stoped = true →
      (runOps s ops).2.engines_stoped = true
      ∧ ∀ j ∈ (runOps s ops).1, j = Job.Closed := by
  induction ops with
  | nil => intro s h; exact ⟨h, by simp [runOps]⟩
  | cons op ops ih =>
      intro s h
      cases op with
      | poll id =>
          have hg := get_job_of_closed s id h
          have hrun : runOps s (Op.poll id :: ops)
              = ((s.get_job id).1 :: (runOps (s.get_job id).2 ops).1,
                 (runOps (s.get_job id).2 ops).2) := rfl
          rw [hrun, hg]
          rcases ih s h with ⟨h1, h2⟩
          refine ⟨h1, ?_⟩
          intro j hj
          rcases List.mem_cons.mp hj with rfl | hj
          · rfl
          · exact h2 j hj
      | mark urls =>
          have hrun : runOps s (Op.mark urls :: ops)
              = runOps (s.mark_urls urls) ops := rfl
          rw [hrun]
          exact ih (s.mark_urls urls) h
      | forceClose =>
          have hrun : runOps s (Op.forceClose :: ops) = runOps s.close ops := rfl
          rw [hrun]
          exact ih s.close rfl
      | isClosed => exact ih s h

lemma searchesOf_nil_of_all_closed {js : List (Job Url)}
    (h : ∀ j ∈ js, j = Job.Closed) : searchesOf js = [] := by
  induction js with
  | nil => rfl
  | cons j js ih =>
      have hj := h j (List.mem_cons_self _ _)
      subst hj
      show searchesOf js = []
      exact ih fun j hj => h j (List.mem_cons_of_mem _ hj)

lemma runPolls_lifo (ids : List Int) :
    ∀ s : Sheduler Url, s.engines_stoped = false →
      (∃ m, searchesOf (runOps s (ids.map Op.poll)).1
          = s.state.wait_list.reverse.take m)
      ∧ (Job.Closed ∈ (runOps s (ids.map Op.poll)).1 →
          searchesOf (runOps s (ids.map Op.poll)).1 = s.state.wait_list.reverse) := by
  induction ids with
  | nil =>
      intro s h
      exact ⟨⟨0, rfl⟩, by simp [runOps, searchesOf]⟩
  | cons id ids ih =>
      intro s h
      have hrun : runOps s ((id :: ids).map Op.poll)
          = ((s.get_job id).1 :: (runOps (s.get_job id).2 (ids.map Op.poll)).1,
             (runOps (s.get_job id).2 (ids.map Op.poll)).2) := rfl
      by_cases hq : allIdle s.engines = true ∧ s.state.wait_list = []
      · have hg := get_job_quiesce s id h hq.1 hq.2
        rcases runOps_closed_all (ids.map Op.poll) s.close rfl with ⟨_, hall⟩
        have hnil : searchesOf (runOps s.close (ids.map Op.poll)).1 = [] :=
          searchesOf_nil_of_all_closed hall
        rw [hrun, hg]
        have hsrch : searchesOf
            (Job.Closed :: (runOps s.close (ids.map Op.poll)).1)
            = searchesOf (runOps s.close (ids.map Op.poll)).1 := rfl
        rw [hsrch, hnil, hq.2]
        exact ⟨⟨0, rfl⟩, fun _ => rfl⟩
      · rcases List.eq_nil_or_concat s.state.wait_list with hw | ⟨l, u, hw⟩
        · have hidle : allIdle s.engines = false := by
            rcases Bool.eq_false_or_eq_true (allIdle s.engines) with h' | h'
            · exact absurd ⟨h', hw⟩ hq
            · exact h'
          have hg := get_job_wait s id h hidle hw
          rw [hrun, hg]
          rcases ih ⟨insertEngine s.engines id EngineState.Idle, s.state, false⟩ rfl
            with ⟨⟨m, hm⟩, hcl⟩
          have hsrch : ∀ js : List (Job Url),
              searchesOf (Job.Idle 5000 :: js) = searchesOf js := fun _ => rfl
          rw [hsrch]
          refine ⟨⟨m, hm⟩, ?_⟩
          intro hmem
          rcases List.mem_cons.mp hmem with hcon | hmem
          · exact absurd hcon.symm (by simp)
          · exact hcl hmem
        · rw [List.concat_eq_append] at hw
          have hg := get_job_search s id h l u hw
          rw [hrun, hg]
          rcases ih ⟨insertEngine s.engines id EngineState.Work,
              ⟨s.state.seen_list, l⟩, false⟩ rfl with ⟨⟨m, hm⟩, hcl⟩
          have hsrch : ∀ js : List (Job Url),
              searchesOf (Job.Search u :: js) = u :: searchesOf js := fun _ => rfl
          rw [hsrch]
          have hrev : s.state.wait_list.reverse = u :: l.reverse := by
            rw [hw]
            simp
          rw [hrev]
          constructor
          · exact ⟨m + 1, by rw [List.take_succ_cons, ← hm]⟩
          · intro hmem
            rcases List.mem_cons.mp hmem with hcon | hmem
            · exact absurd hcon.symm (by simp)
            · rw [hcl hmem]

lemma specNewlyPending_of_nodup (urls : List Url) :
    ∀ seen : List Url, urls.Nodup → (∀ u ∈ urls, u ∉ seen) →
      specNewlyPending seen urls = urls := by
  induction urls with
  | nil => intro seen _ _; rfl
  | cons v us ih =>
      intro seen hnd hdisj
      have hv : v ∉ seen := hdisj v (List.mem_cons_self _ _)
      have hnd' := (List.nodup_cons.mp hnd).2
      have hvus := (List.nodup_cons.mp hnd).1
      rw [specNewlyPending, if_neg hv]
      rw [ih (v :: seen) hnd' ?_]
      intro u hu
      rw [List.mem_cons]
      rintro (rfl | hmem)
      · exact hvus hu
      · exact hdisj u (List.mem_cons_of_mem _ hu) hmem

lemma fresh_marked_wait (urls : List Url) (h : urls.Nodup) :
    ((Sheduler.default : Sheduler Url).mark_urls urls).state.wait_list = urls := by
  have hspec := (update_spec urls (⟨[], []⟩ : State Url)).1
  have hnp : specNewlyPending ([] : List Url) urls = urls :=
    specNewlyPending_of_nodup urls [] h (by simp)
  simpa [hnp] using hspec

/-! ### Claim theorems -/

/-- C4: on a fresh dispatcher — no URL ever reported, no engine has ever
polled — the very first `get_job` call returns `Job.Closed`, whatever the
engine id: the empty engine table vacuously satisfies the all-idle check and
the wait list is empty, so the quiescence branch fires immediately. -/
theorem fresh_first_poll_closed (id : Int) :
    ((Sheduler.default : Sheduler Url).get_job id).1 = Job.Closed := by
  rw [get_job_quiesce (Sheduler.default : Sheduler Url) id rfl rfl rfl]

/-- Witness for C4 at a concrete input: the never-seen engine id `2000`
polling a fresh dispatcher over `Nat` URLs. -/
theorem fresh_first_poll_closed_witness :
    ((Sheduler.default : Sheduler Nat).get_job 2000).1 = Job.Closed :=
  fresh_first_poll_closed 2000

/-- C2: a `get_job` call on an open dispatcher closes it and returns
`Job.Closed` exactly when every engine recorded in the table is `Idle` and
the wait list is empty; otherwise the dispatcher stays open and the call
returns either a `Search` job or an `Idle` job. -/
theorem get_job_quiescence_iff (s : Sheduler Url) (id : Int)
    (hopen : s.engines_stoped = false) :
    (((s.get_job id).1 = Job.Closed ∧ (s.get_job id).2.engines_stoped = true) ↔
      (allIdle s.engines = true ∧ s.state.wait_list = []))
    ∧ (¬ (allIdle s.engines = true ∧ s.state.wait_list = []) →
        (s.get_job id).2.engines_stoped = false ∧
          ((∃ u, (s.get_job id).1 = Job.Search u) ∨ (s.get_job id).1 = Job.Idle 5000)) := by
  by_cases hq : allIdle s.engines = true ∧ s.state.wait_list = []
  · rw [get_job_quiesce s id hopen hq.1 hq.2]
    exact ⟨⟨fun _ => hq, fun _ => ⟨rfl, rfl⟩⟩, fun hn => absurd hq hn⟩
  · rcases List.eq_nil_or_concat s.state.wait_list with hw | ⟨l, u, hw⟩
    · have hidle : allIdle s.engines = false := by
        rcases Bool.eq_false_or_eq_true (allIdle s.engines) with h | h
        · exact absurd ⟨h, hw⟩ hq
        · exact h
      rw [get_job_wait s id hopen hidle hw]
      exact ⟨⟨fun h => by simp at h, fun h => absurd h hq⟩,
        fun _ => ⟨rfl, Or.inr rfl⟩⟩
    · rw [List.concat_eq_append] at hw
      rw [get_job_search s id hopen l u hw]
      exact ⟨⟨fun h => by simp at h, fun h => absurd h hq⟩,
        fun _ => ⟨rfl, Or.inl ⟨u, rfl⟩⟩⟩

/-- Witness for C2 at a concrete input: a dispatcher with one `Work` engine
and a pending URL is open, and polling it neither closes it nor returns
`Job.Closed`. -/
theorem get_job_quiescence_iff_witness :
    (Sheduler.engines_stoped
        ⟨[(0, EngineState.Work)], ⟨[7], [7]⟩, false⟩ : Bool) = false
    ∧ ((Sheduler.get_job (⟨[(0, EngineState.Work)], ⟨[7], [7]⟩, false⟩ : Sheduler Nat)
          1).2.engines_stoped = false
    ∧ ((∃ u, (Sheduler.get_job (⟨[(0, EngineState.Work)], ⟨[7], [7]⟩, false⟩ : Sheduler Nat)
            1).1 = Job.Search u)
        ∨ (Sheduler.get_job (⟨[(0, EngineState.Work)], ⟨[7], [7]⟩, false⟩ : Sheduler Nat)
            1).1 = Job.Idle 5000)) :=
  ⟨rfl, (get_job_quiescence_iff _ 1 rfl).2 (by decide)⟩

/-- C7: whenever `get_job` returns an `Idle` job, the carried delay is
exactly 5000 milliseconds and the polling engine's status is set to `Idle`
in the engine table of the resulting state. -/
theorem wait_is_5000_and_sets_idle (s : Sheduler Url) (id : Int) (d : Nat)
    (h : (s.get_job id).1 = Job.Idle d) :
    d = 5000 ∧ lookupEngine (s.get_job id).2.engines id = some EngineState.Idle := by
  by_cases hcl : s.engines_stoped = true
  · rw [get_job_of_closed s id hcl] at h
    simp at h
  · have hopen : s.engines_stoped = false := Bool.eq_false_iff.mpr hcl
    by_cases hq : allIdle s.engines = true ∧ s.state.wait_list = []
    · rw [get_job_quiesce s id hopen hq.1 hq.2] at h
      simp at h
    · rcases List.eq_nil_or_concat s.state.wait_list with hw | ⟨l, u, hw⟩
      · have hidle : allIdle s.engines = false := by
          rcases Bool.eq_false_or_eq_true (allIdle s.engines) with h' | h'
          · exact absurd ⟨h', hw⟩ hq
          · exact h'
        rw [get_job_wait s id hopen hidle hw] at h ⊢
        refine ⟨?_, lookupEngine_insertEngine_self _ _ _⟩
        exact (Job.Idle.injEq _ _).mp h.symm
      · rw [List.concat_eq_append] at hw
        rw [get_job_search s id hopen l u hw] at h
        simp at h

/-- Witness for C7 at a concrete input: a dispatcher with a busy engine and
an empty wait list returns `Job.Idle 5000` when engine `1` polls. -/
theorem wait_is_5000_and_sets_idle_witness :
    ((Sheduler.get_job (⟨[(0, EngineState.Work)], ⟨[7], []⟩, false⟩ : Sheduler Nat)
        1).1 = Job.Idle 5000)
    ∧ (5000 = 5000
    ∧ lookupEngine
        (Sheduler.get_job (⟨[(0, EngineState.Work)], ⟨[7], []⟩, false⟩ : Sheduler Nat)
          1).2.engines 1 = some EngineState.Idle) :=
  ⟨by decide, wait_is_5000_and_sets_idle _ 1 5000 (by decide)⟩

/-- C8: polling an already-closed dispatcher returns `Job.Closed` and leaves
the whole state unchanged; in particular a never-seen engine id gains no
entry in the engine table. -/
theorem poll_closed_frame (s : Sheduler Url) (id : Int)
    (h : s.engines_stoped = true) :
    s.get_job id = (Job.Closed, s)
    ∧ lookupEngine (s.get_job id).2.engines id = lookupEngine s.engines id := by
  refine ⟨get_job_of_closed s id h, ?_⟩
  rw [get_job_of_closed s id h]

/-- Witness for C8 at a concrete input: a closed dispatcher polled by the
never-seen engine id `42`. -/
theorem poll_closed_frame_witness :
    (Sheduler.engines_stoped (⟨[], ⟨[3], [3]⟩, true⟩ : Sheduler Nat) : Bool) = true
    ∧ Sheduler.get_job (⟨[], ⟨[3], [3]⟩, true⟩ : Sheduler Nat) 42 =
        (Job.Closed, ⟨[], ⟨[3], [3]⟩, true⟩) :=
  ⟨rfl, (poll_closed_frame (⟨[], ⟨[3], [3]⟩, true⟩ : Sheduler Nat) 42 rfl).1⟩

/-- C9: `mark_urls` touches only the frontier: the closed flag and the
engine table are unchanged, the frontier update does not depend on the
closed flag (reporting on a force-closed dispatcher applies the same state
change), and reporting a fresh URL — even after close — grows both the seen
set and the wait list. -/
theorem mark_urls_frame (s : Sheduler Url) (urls : List Url) (u : Url)
    (hu : u ∉ s.state.seen_list) :
    (s.mark_urls urls).engines_stoped = s.engines_stoped
    ∧ (s.mark_urls urls).engines = s.engines
    ∧ (s.mark_urls urls).state = s.state.update urls
    ∧ (s.close.mark_urls urls).state = (s.mark_urls urls).state
    ∧ u ∈ (s.close.mark_url u).state.seen_list
    ∧ (s.close.mark_url u).state.wait_list = s.state.wait_list ++ [u] := by
  refine ⟨rfl, rfl, rfl, rfl, ?_, ?_⟩
  · simp [Sheduler.mark_url, Sheduler.close, State.update_url, hu]
  · simp [Sheduler.mark_url, Sheduler.close, State.update_url, hu]

/-- Witness for C9 at a concrete input: reporting the fresh URL `9` on a
closed dispatcher whose seen set is `[3]`. -/
theorem mark_urls_frame_witness :
    ((9 : Nat) ∉ State.seen_list (⟨[3], [3]⟩ : State Nat))
    ∧ ((Sheduler.mark_urls (⟨[], ⟨[3], [3]⟩, true⟩ : Sheduler Nat) [9]).engines_stoped =
          Sheduler.engines_stoped (⟨[], ⟨[3], [3]⟩, true⟩ : Sheduler Nat)
    ∧ (Sheduler.mark_urls (⟨[], ⟨[3], [3]⟩, true⟩ : Sheduler Nat) [9]).engines =
          Sheduler.engines (⟨[], ⟨[3], [3]⟩, true⟩ : Sheduler Nat)
    ∧ (Sheduler.mark_urls (⟨[], ⟨[3], [3]⟩, true⟩ : Sheduler Nat) [9]).state =
          State.update (⟨[3], [3]⟩ : State Nat) [9]
    ∧ ((Sheduler.close (⟨[], ⟨[3], [3]⟩, true⟩ : Sheduler Nat)).mark_urls [9]).state =
          (Sheduler.mark_urls (⟨[], ⟨[3], [3]⟩, true⟩ : Sheduler Nat) [9]).state
    ∧ (9 : Nat) ∈ ((Sheduler.close (⟨[], ⟨[3], [3]⟩, true⟩ : Sheduler Nat)).mark_url
          9).state.seen_list
    ∧ ((Sheduler.close (⟨[], ⟨[3], [3]⟩, true⟩ : Sheduler Nat)).mark_url
          9).state.wait_list = [3] ++ [9]) :=
  ⟨by decide, mark_urls_frame (⟨[], ⟨[3], [3]⟩, true⟩ : Sheduler Nat) [9] 9 (by decide)⟩

/-- C6: `mark_urls` is a total operation whose effect is exactly: walk the
given URLs in order, appending to the wait list precisely those not seen at
the moment of their own insertion, and making the seen set the union of the
old one with the reported URLs.  URLs already seen change nothing. -/
theorem mark_urls_postcondition (s : Sheduler Url) (urls : List Url) :
    (s.mark_urls urls).state.wait_list
        = s.state.wait_list ++ specNewlyPending s.state.seen_list urls
    ∧ (∀ u, u ∈ (s.mark_urls urls).state.seen_list ↔
          u ∈ s.state.seen_list ∨ u ∈ urls)
    ∧ (s.mark_urls urls).engines_stoped = s.engines_stoped := by
  rcases update_spec urls s.state with ⟨hw, hs⟩
  exact ⟨hw, hs, rfl⟩

/-- Witness for C6 at a concrete input: reporting `[7, 3, 7]` on a
dispatcher that has already seen `3`. -/
theorem mark_urls_postcondition_witness :
    (Sheduler.mark_urls (⟨[], ⟨[3], []⟩, false⟩ : Sheduler Nat)
        [7, 3, 7]).state.wait_list
        = [] ++ specNewlyPending [3] [7, 3, 7]
    ∧ ((7 : Nat) ∈ (Sheduler.mark_urls (⟨[], ⟨[3], []⟩, false⟩ : Sheduler Nat)
          [7, 3, 7]).state.seen_list ↔ (7 : Nat) ∈ [3] ∨ (7 : Nat) ∈ [7, 3, 7]) :=
  ⟨(mark_urls_postcondition (⟨[], ⟨[3], []⟩, false⟩ : Sheduler Nat) [7, 3, 7]).1,
   (mark_urls_postcondition (⟨[], ⟨[3], []⟩, false⟩ : Sheduler Nat) [7, 3, 7]).2.1 7⟩

/-- C10: starting from a fresh dispatcher, no sequence of report, poll,
force-close or is-closed calls ever stores the `Created` status: every entry
of the engine table is `Work` or `Idle`. -/
theorem no_created_in_table (ops : List (Op Url)) (p : Int × EngineState)
    (hp : p ∈ (runOps (Sheduler.default : Sheduler Url) ops).2.engines) :
    p.2 = EngineState.Work ∨ p.2 = EngineState.Idle :=
  runOps_enginesWF ops Sheduler.default
    (by intro q hq; simp [Sheduler.default] at hq) p hp

/-- Witness for C10 at a concrete input: after reporting `[5]` and one poll
by engine `0`, the table holds `(0, Work)`, which is `Work` or `Idle`. -/
theorem no_created_in_table_witness :
    (((0, EngineState.Work) : Int × EngineState) ∈
        (runOps (Sheduler.default : Sheduler Nat)
          [Op.mark [5], Op.poll 0]).2.engines)
    ∧ (((0, EngineState.Work) : Int × EngineState).2 = EngineState.Work
        ∨ ((0, EngineState.Work) : Int × EngineState).2 = EngineState.Idle) := by
  have hmem : ((0, EngineState.Work) : Int × EngineState) ∈
      (runOps (Sheduler.default : Sheduler Nat)
        [Op.mark [5], Op.poll 0]).2.engines := by
    have h : (runOps (Sheduler.default : Sheduler Nat)
        [Op.mark [5], Op.poll 0]).2.engines = [((0 : Int), EngineState.Work)] := by
      rfl
    rw [h]
    exact List.mem_cons_self _ _
  exact ⟨hmem, no_created_in_table [Op.mark [5], Op.poll 0]
      ((0, EngineState.Work) : Int × EngineState) hmem⟩

/-- C5: starting from a fresh dispatcher, no sequence of report, poll,
force-close or is-closed calls ever yields two `Search` jobs for the same
URL; and reporting a URL already in the seen set leaves the frontier
unchanged, so a URL enters the wait list at most once. -/
theorem url_assigned_at_most_once (ops : List (Op Url)) (u : Url)
    (st : State Url) (h : u ∈ st.seen_list) :
    (runOps (Sheduler.default : Sheduler Url) ops).1.count (Job.Search u) ≤ 1
    ∧ st.update_url u = st := by
  constructor
  · have hrun := runOps_availCount ops (Sheduler.default : Sheduler Url) u
    have hd : availCount (Sheduler.default : Sheduler Url) u = 1 := by
      simp [availCount, Sheduler.default]
    omega
  · simp [State.update_url, h]

/-- Witness for C5 at a concrete input: the URL `5` reported twice in one
batch and polled for repeatedly still yields at most one `Search 5`. -/
theorem url_assigned_at_most_once_witness :
    ((5 : Nat) ∈ State.seen_list (⟨[5], []⟩ : State Nat))
    ∧ ((runOps (Sheduler.default : Sheduler Nat)
          [Op.mark [5, 5], Op.poll 0, Op.mark [5], Op.poll 1,
            Op.poll 0]).1.count (Job.Search 5) ≤ 1
    ∧ State.update_url (⟨[5], []⟩ : State Nat) 5 = (⟨[5], []⟩ : State Nat)) :=
  ⟨by decide, url_assigned_at_most_once
      [Op.mark [5, 5], Op.poll 0, Op.mark [5], Op.poll 1, Op.poll 0]
      5 (⟨[5], []⟩ : State Nat) (by decide)⟩

/-- C3: closure is absorbing.  Any `get_job` call that returns `Job.Closed`
leaves the closed flag set; `close` sets it; and from any closed state,
whatever mix of report, poll, force-close and is-closed calls follows, the
flag stays `true`, every poll in the sequence returns `Job.Closed`, and so
does any further poll by any engine id. -/
theorem closed_absorbing (s s₀ : Sheduler Url) (ops : List (Op Url)) (i id : Int)
    (h : s.engines_stoped = true) :
    (runOps s ops).2.engines_stoped = true
    ∧ (∀ j ∈ (runOps s ops).1, j = Job.Closed)
    ∧ ((runOps s ops).2.get_job id).1 = Job.Closed
    ∧ ((s₀.get_job i).1 = Job.Closed → (s₀.get_job i).2.engines_stoped = true)
    ∧ s₀.close.engines_stoped = true := by
  rcases runOps_closed_all ops s h with ⟨h1, h2⟩
  refine ⟨h1, h2, ?_, ?_, rfl⟩
  · rw [get_job_of_closed _ id h1]
  · intro hc
    by_cases hcl : s₀.engines_stoped = true
    · rw [get_job_of_closed s₀ i hcl]
      exact hcl
    · have hopen : s₀.engines_stoped = false := Bool.eq_false_iff.mpr hcl
      by_cases hq : allIdle s₀.engines = true ∧ s₀.state.wait_list = []
      · rw [get_job_quiesce s₀ i hopen hq.1 hq.2]
        rfl
      · rcases List.eq_nil_or_concat s₀.state.wait_list with hw | ⟨l, u, hw⟩
        · have hidle : allIdle s₀.engines = false := by
            rcases Bool.eq_false_or_eq_true (allIdle s₀.engines) with h' | h'
            · exact absurd ⟨h', hw⟩ hq
            · exact h'
          rw [get_job_wait s₀ i hopen hidle hw] at hc
          simp at hc
        · rw [List.concat_eq_append] at hw
          rw [get_job_search s₀ i hopen l u hw] at hc
          simp at hc

/-- Witness for C3 at a concrete input: a force-closed dispatcher stays
closed through a report and a poll, and keeps answering `Job.Closed`. -/
theorem closed_absorbing_witness :
    (Sheduler.engines_stoped (⟨[], ⟨[], []⟩, true⟩ : Sheduler Nat) : Bool) = true
    ∧ (runOps (⟨[], ⟨[], []⟩, true⟩ : Sheduler Nat)
        [Op.mark [8], Op.poll 0]).2.engines_stoped = true
    ∧ ((runOps (⟨[], ⟨[], []⟩, true⟩ : Sheduler Nat)
        [Op.mark [8], Op.poll 0]).2.get_job 99).1 = Job.Closed :=
  ⟨rfl,
   (closed_absorbing (⟨[], ⟨[], []⟩, true⟩ : Sheduler Nat)
      (⟨[], ⟨[], []⟩, true⟩ : Sheduler Nat) [Op.mark [8], Op.poll 0] 0 99 rfl).1,
   (closed_absorbing (⟨[], ⟨[], []⟩, true⟩ : Sheduler Nat)
      (⟨[], ⟨[], []⟩, true⟩ : Sheduler Nat) [Op.mark [8], Op.poll 0] 0 99 rfl).2.2.1⟩

/-- C1: report a batch of pairwise-distinct URLs once to a fresh dispatcher,
then let any engines poll in any order: the URLs carried by the `Search`
jobs form a prefix of the reversed batch (LIFO — the last reported URL is
dispatched first, and no URL is dispatched twice), and if the run reaches
`Job.Closed` the `Search` jobs cover the whole batch, each URL exactly
once. -/
theorem report_batch_lifo (urls : List Url) (ids : List Int) (hnd : urls.Nodup) :
    (∃ m, searchesOf (runOps ((Sheduler.default : Sheduler Url).mark_urls urls)
        (ids.map Op.poll)).1 = urls.reverse.take m)
    ∧ (Job.Closed ∈ (runOps ((Sheduler.default : Sheduler Url).mark_urls urls)
          (ids.map Op.poll)).1 →
        searchesOf (runOps ((Sheduler.default : Sheduler Url).mark_urls urls)
          (ids.map Op.poll)).1 = urls.reverse) := by
  have hw := fresh_marked_wait urls hnd
  have h := runPolls_lifo ids ((Sheduler.default : Sheduler Url).mark_urls urls) rfl
  rw [hw] at h
  exact h

/-- Witness for C1 at a concrete input: the batch `[1, 2]` polled to
completion by engine `0` yields the searches `[2, 1]`, the reversed
batch. -/
theorem report_batch_lifo_witness :
    ([1, 2] : List Nat).Nodup
    ∧ (Job.Closed ∈ (runOps ((Sheduler.default : Sheduler Nat).mark_urls [1, 2])
          ([0, 0, 0, 0].map Op.poll)).1)
    ∧ searchesOf (runOps ((Sheduler.default : Sheduler Nat).mark_urls [1, 2])
          ([0, 0, 0, 0].map Op.poll)).1 = ([1, 2] : List Nat).reverse :=
  ⟨by decide, by decide,
   (report_batch_lifo [1, 2] [0, 0, 0, 0] (by decide)).2 (by decide)⟩

end Donop
